import Mathlib

/-!
Verification of the embedding-model evaluation harness
(`src/eval_embeddings.ts`).

The harness is shallowly embedded as follows:
* JavaScript numbers are modelled as exact rationals extended with the
  special values `Infinity`, `-Infinity` and `NaN` (`JsNum`); floating
  point rounding is idealised away, but the division-by-zero and
  special-value propagation rules of IEEE/JS arithmetic are kept, since
  several properties hinge on them.
* similarity matrices and embedding sets are `List (List ℚ)`;
* fallible array accesses (reading a property of `undefined` raises a
  `TypeError` in JS) are modelled with `Except Unit`;
* the sort used for ranking (`Array.prototype.sort`, which is required
  to be stable) is modelled by a stable insertion sort on
  (index, score) pairs.
-/

/-- A JavaScript number: a finite value (idealised as an exact rational),
positive or negative infinity, or NaN. -/
inductive JsNum where
  | num (q : ℚ)
  | inf
  | negInf
  | nan
deriving DecidableEq, Repr

/-- JS addition on numbers, including the special values. -/
def JsNum.add : JsNum → JsNum → JsNum
  | nan, _ => nan
  | _, nan => nan
  | num a, num b => num (a + b)
  | inf, negInf => nan
  | negInf, inf => nan
  | inf, _ => inf
  | _, inf => inf
  | negInf, _ => negInf
  | _, negInf => negInf

/-- JS multiplication on numbers, including the special values
(in particular `Infinity * 0 = NaN`). -/
def JsNum.mul : JsNum → JsNum → JsNum
  | nan, _ => nan
  | _, nan => nan
  | num a, num b => num (a * b)
  | inf, num b => if b = 0 then nan else if 0 < b then inf else negInf
  | num a, inf => if a = 0 then nan else if 0 < a then inf else negInf
  | negInf, num b => if b = 0 then nan else if 0 < b then negInf else inf
  | num a, negInf => if a = 0 then nan else if 0 < a then negInf else inf
  | inf, inf => inf
  | inf, negInf => negInf
  | negInf, inf => negInf
  | negInf, negInf => inf

/-- JS division of two finite numbers: `a / 0` is `Infinity`, `-Infinity`
or `NaN` according to the sign of `a` (the harness only ever produces the
zero `+0`, so the `-0` branch is not modelled). -/
def jsDiv (a b : ℚ) : JsNum :=
  if b = 0 then (if 0 < a then .inf else if a < 0 then .negInf else .nan)
  else .num (a / b)

/-- JS division on numbers, including the special values. -/
def JsNum.div : JsNum → JsNum → JsNum
  | nan, _ => nan
  | _, nan => nan
  | num a, num b => jsDiv a b
  | inf, num b => if b < 0 then negInf else inf
  | negInf, num b => if b < 0 then inf else negInf
  | num _, inf => num 0
  | num _, negInf => num 0
  | inf, inf => nan
  | inf, negInf => nan
  | negInf, inf => nan
  | negInf, negInf => nan

/-- `evaluateModel`: `avg_xml_latency_ms: (xmlTime / xmlTexts.length) * 1000`
(and likewise for queries).  The division by the item count is not guarded. -/
def avgLatencyMs (timeSec : ℚ) (itemCount : ℕ) : JsNum :=
  JsNum.mul (jsDiv timeSec (itemCount : ℚ)) (JsNum.num 1000)

/-- `encodeTexts`: `const cpuPercent = (cpuTimeMs / wallTimeMs) * 100`.
The division by the wall time is not guarded. -/
def cpuPercent (cpuTimeMs wallTimeMs : ℚ) : JsNum :=
  JsNum.mul (jsDiv cpuTimeMs wallTimeMs) (JsNum.num 100)

/-!  ## Ranking (shared by `recallAtK` and `meanReciprocalRank`)

Both metrics build, per row, `row.map((score, idx) => ({score, idx}))`
and sort it with the comparator `(a, b) => b.score - a.score`.
`Array.prototype.sort` is stable, so equal scores keep their original
relative order.  This is modelled by a stable insertion sort on pairs
`(idx, score)`, ordered by descending score. -/

/-- Insert a pair into a descending-sorted list of pairs, after every
element with a strictly greater score and before every element whose
score is less than or equal (stability: the inserted element comes from
earlier in the original list than everything already present). -/
def insertPair (x : ℕ × ℚ) : List (ℕ × ℚ) → List (ℕ × ℚ)
  | [] => [x]
  | h :: t => if h.2 ≤ x.2 then x :: h :: t else h :: insertPair x t

/-- Stable sort of (index, score) pairs by descending score: the model of
`.sort((a, b) => b.score - a.score)`. -/
def sortPairsDesc (l : List (ℕ × ℚ)) : List (ℕ × ℚ) :=
  l.foldr insertPair []

/-- Per-row ranking: corpus indices sorted by descending similarity score,
ties keeping original index order (`.map(...).sort(...).map(item => item.idx)`). -/
def rankedRow (row : List ℚ) : List ℕ :=
  (sortPairsDesc row.enum).map Prod.fst

/-- The ranking order produced by the stable descending sort: an earlier
pair has a strictly greater score, or an equal score and a strictly
smaller original corpus index (the stable tie-break). -/
def tieOrder (p q : ℕ × ℚ) : Prop :=
  q.2 < p.2 ∨ (p.2 = q.2 ∧ p.1 < q.1)

/-- One query row of `recallAtK`: `ranked.slice(0, k).includes(groundTruth[i])`. -/
def hitRow (row : List ℚ) (g k : ℕ) : Bool :=
  ((rankedRow row).take k).contains g

/-- The body of the `recallAtK` loop at row index `i`; when `groundTruth`
has no entry at `i`, JS reads `undefined`, which is never an element of
the ranking, so the row is not a hit. -/
def queryHit (sm : List (List ℚ)) (gt : List ℕ) (k i : ℕ) : Bool :=
  match gt.get? i with
  | some g => hitRow (sm.getD i []) g k
  | none => false

/-- `recallAtK(similarityMatrix, groundTruth, k)`: hits over the rows,
divided by the number of rows (a JS division, so `0/0 = NaN` for an
empty matrix). -/
def recallAtK (sm : List (List ℚ)) (gt : List ℕ) (k : ℕ) : JsNum :=
  jsDiv (((List.range sm.length).countP (queryHit sm gt k) : ℕ) : ℚ) ((sm.length : ℕ) : ℚ)

/-- `Array.prototype.indexOf`: the index of the first occurrence, or `-1`
when the element is absent. -/
def jsIndexOf : List ℕ → ℕ → ℤ
  | [], _ => -1
  | h :: t, x =>
    if h = x then 0
    else
      let r := jsIndexOf t x
      if r = -1 then -1 else r + 1

/-- One query row of `meanReciprocalRank`:
`rank = ranked.indexOf(groundTruth[i]) + 1; rrSum += 1.0 / rank`.
When the ground-truth index is absent, `indexOf` gives `-1`, the rank is
`0`, and `1.0 / 0` is `Infinity` in JS. -/
def reciprocalRank (row : List ℚ) (g : ℕ) : JsNum :=
  jsDiv 1 (((jsIndexOf (rankedRow row) g + 1 : ℤ) : ℚ))

/-- The `meanReciprocalRank` loop body at row index `i`; a missing
ground-truth entry behaves like an absent element (`indexOf(undefined) = -1`). -/
def queryRR (sm : List (List ℚ)) (gt : List ℕ) (i : ℕ) : JsNum :=
  match gt.get? i with
  | some g => reciprocalRank (sm.getD i []) g
  | none => jsDiv 1 0

/-- `meanReciprocalRank(similarityMatrix, groundTruth)`: the sum of the
reciprocal ranks divided by the number of rows, all in JS arithmetic. -/
def meanReciprocalRank (sm : List (List ℚ)) (gt : List ℕ) : JsNum :=
  JsNum.div
    ((List.range sm.length).foldl (fun acc i => JsNum.add acc (queryRR sm gt i)) (JsNum.num 0))
    (JsNum.num ((sm.length : ℕ) : ℚ))

/-!  ## Similarity engine (`matmul`, `transpose`) -/

/-- The inner `k` loop of `matmul`: `sum += a[i][k] * b[k][j]`, folding
over the list `ks` of `k` values.  Reading `b[k]` when `k ≥ b.length`
yields `undefined`, and `undefined[j]` raises a `TypeError`
(`Except.error`); an out-of-range element access `a[i][k]` or `b[k][j]`
yields `undefined`, and multiplying by `undefined` yields `NaN`, which is
silently accumulated. -/
def dotJsAux (arow : List ℚ) (b : List (List ℚ)) (j : ℕ) :
    List ℕ → JsNum → Except Unit JsNum
  | [], acc => .ok acc
  | k :: ks, acc =>
    match b.get? k with
    | none => .error ()
    | some brow =>
      let term : JsNum :=
        match arow.get? k, brow.get? j with
        | some x, some y => .num (x * y)
        | _, _ => .nan
      dotJsAux arow b j ks (JsNum.add acc term)

/-- The entry computation of `matmul` at column `j`: the `k` loop runs
over `0 ≤ k < a[0].length` with `sum` starting at `0`. -/
def dotJs (arow : List ℚ) (b : List (List ℚ)) (j D : ℕ) : Except Unit JsNum :=
  dotJsAux arow b j (List.range D) (JsNum.num 0)

/-- The `j` loop of `matmul`: one result row, one entry per column index
in `cols` (i.e. `0 ≤ j < b[0].length`). -/
def rowJs (arow : List ℚ) (b : List (List ℚ)) (D : ℕ) :
    List ℕ → Except Unit (List JsNum)
  | [] => .ok []
  | j :: js =>
    match dotJs arow b j D with
    | .error e => .error e
    | .ok v =>
      match rowJs arow b D js with
      | .error e => .error e
      | .ok vs => .ok (v :: vs)

/-- The outer `i` loop of `matmul`: one result row per row of `a`. -/
def matmulRows (b : List (List ℚ)) (cols : List ℕ) (D : ℕ) :
    List (List ℚ) → Except Unit (List (List JsNum))
  | [] => .ok []
  | arow :: rest =>
    match rowJs arow b D cols with
    | .error e => .error e
    | .ok v =>
      match matmulRows b cols D rest with
      | .error e => .error e
      | .ok vs => .ok (v :: vs)

/-- `matmul(a, b)`.  When `a` is empty no loop body runs and the result is
`[]`.  Otherwise the loop bounds read `b[0].length` (a `TypeError` when
`b` is empty — `Except.error`) and `a[0].length`. -/
def matmul (a b : List (List ℚ)) : Except Unit (List (List JsNum)) :=
  match a with
  | [] => .ok []
  | a0 :: _ =>
    match b.get? 0 with
    | none => .error ()
    | some b0 => matmulRows b (List.range b0.length) a0.length a

/-- `transpose(matrix)`: `[]` for an empty matrix, otherwise
`result[j][i] = matrix[i][j]` for `0 ≤ j < matrix[0].length`.  The
harness only transposes rectangular matrices (all rows of one embedding
set share the model dimensionality), so element reads are in range and
`getD` never takes its default. -/
def transpose (m : List (List ℚ)) : List (List ℚ) :=
  match m with
  | [] => []
  | m0 :: _ => (List.range m0.length).map (fun j => m.map (fun row => row.getD j 0))

/-- The mathematical dot product of two vectors. -/
def dot (u v : List ℚ) : ℚ :=
  (List.zipWith (· * ·) u v).sum

/-!  ## Batch encoder (`encodeTexts`) -/

/-- The batching loop of `encodeTexts`, with the remaining list length as
structural fuel: `batch = texts.slice(i, min(i + batchSize, texts.length))`,
`i += batchSize`.  The source loops forever when `batchSize = 0`
(`i += 0`); the contract requires `batchSize ≥ 1` and every theorem below
assumes it, so the fuel-exhaustion branch is unreachable there. -/
def batchesAux (bs : ℕ) : ℕ → List α → List (List α)
  | _, [] => []
  | 0, _ :: _ => []
  | fuel + 1, t :: ts => ((t :: ts).take bs) :: batchesAux bs fuel (ts.drop (bs - 1))

/-- The list of consecutive batches taken by `encodeTexts`. -/
def batches (bs : ℕ) (ts : List α) : List (List α) :=
  batchesAux bs ts.length ts

/-- `encodeTexts(extractor, texts, batchSize)`, embedding part: per batch,
the provider `f` is invoked once per text, one at a time in input order,
and each vector is appended to the output (`allEmbeddings.push(...)`).
The timing/memory instrumentation reads process counters and is dealt
with separately (`cpuPercent`, `avgLatencyMs`). -/
def encodeTexts (f : α → β) (texts : List α) (batchSize : ℕ) : List β :=
  (batches batchSize texts).foldl (fun acc batch => acc ++ batch.map f) []

/-!  ## Properties of the stable descending sort -/

theorem insertPair_perm (x : ℕ × ℚ) (l : List (ℕ × ℚ)) :
    (insertPair x l).Perm (x :: l) := by
  induction l with
  | nil => exact List.Perm.refl _
  | cons h t ih =>
    by_cases hc : h.2 ≤ x.2
    · simp [insertPair, hc]
    · simp only [insertPair, if_neg hc]
      exact (ih.cons h).trans (List.Perm.swap x h t)

theorem sortPairsDesc_perm (l : List (ℕ × ℚ)) : (sortPairsDesc l).Perm l := by
  induction l with
  | nil => exact List.Perm.refl _
  | cons x t ih =>
    show (insertPair x (sortPairsDesc t)).Perm (x :: t)
    exact (insertPair_perm x (sortPairsDesc t)).trans (ih.cons x)

theorem pairwise_insertPair (x : ℕ × ℚ) (l : List (ℕ × ℚ))
    (hl : l.Pairwise tieOrder) (hx : ∀ y ∈ l, x.1 < y.1) :
    (insertPair x l).Pairwise tieOrder := by
  induction l with
  | nil => simp [insertPair]
  | cons h t ih =>
    rcases List.pairwise_cons.mp hl with ⟨hh, ht⟩
    by_cases hc : h.2 ≤ x.2
    · simp only [insertPair, if_pos hc]
      refine List.pairwise_cons.mpr ⟨?_, hl⟩
      intro y hy
      rcases List.mem_cons.mp hy with rfl | hy
      · rcases lt_or_eq_of_le hc with h1 | h1
        · exact Or.inl h1
        · exact Or.inr ⟨h1.symm, hx _ (List.mem_cons_self _ _)⟩
      · have hsc : y.2 ≤ h.2 := by
          rcases hh y hy with h2 | h2
          · exact le_of_lt h2
          · exact le_of_eq h2.1.symm
        rcases lt_or_eq_of_le (le_trans hsc hc) with h2 | h2
        · exact Or.inl h2
        · exact Or.inr ⟨h2.symm, hx _ (List.mem_cons_of_mem _ hy)⟩
    · simp only [insertPair, if_neg hc]
      refine List.pairwise_cons.mpr ⟨?_, ?_⟩
      · intro z hz
        rcases List.mem_cons.mp ((insertPair_perm x t).subset hz) with rfl | hz1
        · exact Or.inl (lt_of_not_le hc)
        · exact hh z hz1
      · exact ih ht (fun y hy => hx y (List.mem_cons_of_mem _ hy))

theorem pairwise_sortPairsDesc (l : List (ℕ × ℚ))
    (hl : l.Pairwise (fun p q : ℕ × ℚ => p.1 < q.1)) :
    (sortPairsDesc l).Pairwise tieOrder := by
  induction l with
  | nil => simp [sortPairsDesc]
  | cons x t ih =>
    rcases List.pairwise_cons.mp hl with ⟨hx, ht⟩
    show (insertPair x (sortPairsDesc t)).Pairwise tieOrder
    refine pairwise_insertPair x _ (ih ht) ?_
    intro y hy
    exact hx y ((sortPairsDesc_perm t).subset hy)

theorem enum_pairwise_fst (l : List ℚ) :
    l.enum.Pairwise (fun p q : ℕ × ℚ => p.1 < q.1) := by
  have h := List.pairwise_lt_range l.length
  rw [← List.enum_map_fst l] at h
  exact List.pairwise_map.mp h

theorem rankedRow_perm (row : List ℚ) :
    (rankedRow row).Perm (List.range row.length) := by
  have h := (sortPairsDesc_perm row.enum).map Prod.fst
  rwa [List.enum_map_fst] at h

theorem mem_rankedRow {row : List ℚ} {g : ℕ} :
    g ∈ rankedRow row ↔ g < row.length := by
  rw [(rankedRow_perm row).mem_iff, List.mem_range]

theorem rankedRow_length (row : List ℚ) :
    (rankedRow row).length = row.length := by
  simpa using (rankedRow_perm row).length_eq

theorem jsIndexOf_nonneg {l : List ℕ} {x : ℕ} (h : x ∈ l) :
    0 ≤ jsIndexOf l x := by
  induction l with
  | nil => simp at h
  | cons a t ih =>
    by_cases ha : a = x
    · simp [jsIndexOf, ha]
    · have hx : x ∈ t := by
        rcases List.mem_cons.mp h with h1 | h1
        · exact absurd h1.symm ha
        · exact h1
      have hr := ih hx
      simp only [jsIndexOf, if_neg ha]
      split
      · omega
      · omega

/-!  ## Claim theorems (part 1) -/

/-- C1: the claim asserts that encoding an empty text sequence yields an
empty embedding sequence (true: `encodeTexts` runs no loop body) and that
the report divisions by item count and by wall time are guarded against
zero (false: the code computes `(time / count) * 1000` and
`(cpuTime / wallTime) * 100` unguarded, so an empty input produces
`Infinity`, or `NaN` when the numerator is also zero).  This theorem
evaluates the code at the failing input. -/
theorem c1_empty_input_unguarded_divisions :
    encodeTexts (fun n : ℕ => [(n : ℚ)]) [] 32 = []
    ∧ avgLatencyMs 0 0 = JsNum.nan
    ∧ avgLatencyMs 1 0 = JsNum.inf
    ∧ cpuPercent 0 0 = JsNum.nan
    ∧ cpuPercent 1 0 = JsNum.inf := by
  refine ⟨rfl, ?_, ?_, ?_, ?_⟩ <;>
    norm_num [avgLatencyMs, cpuPercent, jsDiv, JsNum.mul]

/-- C2: the claim asserts that comparing a Q×3 query set with a C×4
corpus set fails with a `DimensionMismatch` error and never silently
truncates.  The code has no dimensionality check: the inner loop runs
over `a[0].length = 3` only, so the similarity of `[1,1,1]` with
`[1,1,1,1]` is computed as `3` from the first three coordinates — a
silent truncation, with no error. -/
theorem c2_dimension_mismatch_silently_truncates :
    matmul [[(1:ℚ), 1, 1]] (transpose [[(1:ℚ), 1, 1, 1]]) =
      Except.ok [[JsNum.num 3]] := by
  norm_num [matmul, transpose, matmulRows, rowJs, dotJs, dotJsAux, List.range_succ, JsNum.add]

/-- C3 (counterexample): the claim asserts that C = 0 (an empty corpus)
yields an empty similarity matrix without an error, but with one query
row the code reads `b[0].length` of the empty transposed matrix and
raises a `TypeError`. -/
theorem c3_empty_corpus_with_query_raises :
    matmul [[(1:ℚ)]] (transpose ([] : List (List ℚ))) = Except.error () := rfl

/-- C3 (amended): Q = 0 yields the empty matrix without an error, for any
corpus; but when Q ≥ 1 and the corpus is empty (C = 0) the computation
raises instead of returning an empty matrix. -/
theorem c3_empty_cases :
    (∀ b : List (List ℚ), matmul [] b = Except.ok [])
    ∧ ∀ (a0 : List ℚ) (arest : List (List ℚ)),
        matmul (a0 :: arest) (transpose ([] : List (List ℚ))) = Except.error () :=
  ⟨fun _ => rfl, fun _ _ => rfl⟩

/-- C4: the claim asserts that a ground-truth index outside the corpus
columns makes `meanReciprocalRank` fail with a `ConfigError`.  The code
instead gets `indexOf = -1`, hence rank `0`, adds `1/0 = Infinity` to the
sum and returns the numeric value `Infinity`. -/
theorem c4_out_of_range_ground_truth_gives_infinity :
    meanReciprocalRank [[(1:ℚ)]] [5] = JsNum.inf := by
  norm_num [meanReciprocalRank, queryRR, reciprocalRank, rankedRow, sortPairsDesc, insertPair,
    List.enum, List.enumFrom, jsIndexOf, jsDiv, List.range_succ, JsNum.add, JsNum.div]

/-- C8: the per-row ranking sorts the (index, score) pairs by strictly
descending score with ties broken by increasing original corpus index (a
stable, deterministic sort), the ranked index list is a permutation of
all corpus indices, and consequently a 4×4 all-ties similarity matrix
with identity ground truth has Recall@2 = 0.5. -/
theorem c8_stable_tiebreak_ranking :
    (∀ row : List ℚ, (sortPairsDesc row.enum).Pairwise tieOrder
      ∧ (rankedRow row).Perm (List.range row.length))
    ∧ recallAtK [[(1:ℚ),1,1,1],[1,1,1,1],[1,1,1,1],[1,1,1,1]] [0,1,2,3] 2 =
        JsNum.num (1/2) := by
  constructor
  · intro row
    exact ⟨pairwise_sortPairsDesc _ (enum_pairwise_fst row), rankedRow_perm row⟩
  · norm_num [recallAtK, queryHit, hitRow, rankedRow, sortPairsDesc, insertPair, List.enum,
      List.enumFrom, jsDiv, List.range_succ, List.countP_cons]

/-!  ## Recall@K: monotonicity and the clamped upper bound -/

theorem queryHit_mono {sm : List (List ℚ)} {gt : List ℕ} {k1 k2 i : ℕ} (hk : k1 ≤ k2)
    (h : queryHit sm gt k1 i = true) : queryHit sm gt k2 i = true := by
  unfold queryHit at h ⊢
  cases hgt : gt.get? i with
  | none => rw [hgt] at h; exact absurd h (by simp)
  | some g =>
    rw [hgt] at h
    have h1 : hitRow (sm.getD i []) g k1 = true := h
    show hitRow (sm.getD i []) g k2 = true
    have hmem : g ∈ (rankedRow (sm.getD i [])).take k1 := List.elem_iff.mp h1
    have he : ((rankedRow (sm.getD i [])).take k2).take k1 = (rankedRow (sm.getD i [])).take k1 := by
      rw [List.take_take, Nat.min_eq_left hk]
    rw [← he] at hmem
    exact List.elem_iff.mpr (List.take_subset _ _ hmem)

/-- C6: for a fixed similarity matrix with at least one row and a fixed
ground-truth mapping, Recall@k is monotone in the cutoff: for k1 ≤ k2
both values are finite numbers and Recall@k1 ≤ Recall@k2. -/
theorem c6_recall_monotone (sm : List (List ℚ)) (gt : List ℕ) (k1 k2 : ℕ)
    (hQ : 0 < sm.length) (hk : k1 ≤ k2) :
    ∃ r1 r2 : ℚ, recallAtK sm gt k1 = JsNum.num r1
      ∧ recallAtK sm gt k2 = JsNum.num r2 ∧ r1 ≤ r2 := by
  have hQ0 : ((sm.length : ℕ) : ℚ) ≠ 0 := Nat.cast_ne_zero.mpr (Nat.pos_iff_ne_zero.mp hQ)
  refine ⟨((List.range sm.length).countP (queryHit sm gt k1) : ℚ) / ((sm.length : ℕ) : ℚ),
          ((List.range sm.length).countP (queryHit sm gt k2) : ℚ) / ((sm.length : ℕ) : ℚ),
          ?_, ?_, ?_⟩
  · simp [recallAtK, jsDiv, hQ0]
  · simp [recallAtK, jsDiv, hQ0]
  · have hcnt : (List.range sm.length).countP (queryHit sm gt k1)
        ≤ (List.range sm.length).countP (queryHit sm gt k2) :=
      List.countP_mono_left (fun i _ h => queryHit_mono hk h)
    have hQpos : (0 : ℚ) < ((sm.length : ℕ) : ℚ) := by exact_mod_cast hQ
    exact (div_le_div_iff_of_pos_right hQpos).mpr (by exact_mod_cast hcnt)

/-- C6 witness. -/
theorem c6_recall_monotone_witness :
    0 < ([[(1:ℚ), 2]] : List (List ℚ)).length ∧ 1 ≤ 2 ∧
    ∃ r1 r2 : ℚ, recallAtK [[(1:ℚ), 2]] [1] 1 = JsNum.num r1
      ∧ recallAtK [[(1:ℚ), 2]] [1] 2 = JsNum.num r2 ∧ r1 ≤ r2 :=
  ⟨by decide, by decide, c6_recall_monotone [[(1:ℚ), 2]] [1] 1 2 (by decide) (by decide)⟩

/-- C7: for a similarity matrix with at least one row, all rows of corpus
width C, and a ground-truth mapping defined on every query with all
indices inside [0, C), Recall@k with any k ≥ C is exactly 1: the top-k is
clamped to the full ranking, which is a permutation of all corpus
indices and therefore contains the ground-truth index. -/
theorem c7_recall_full_ranking_one (sm : List (List ℚ)) (gt : List ℕ) (C k : ℕ)
    (hne : sm ≠ []) (hrect : ∀ row ∈ sm, row.length = C)
    (hlen : gt.length = sm.length) (hgt : ∀ g ∈ gt, g < C) (hk : C ≤ k) :
    recallAtK sm gt k = JsNum.num 1 := by
  have hQ : 0 < sm.length := List.length_pos.mpr hne
  have hQ0 : ((sm.length : ℕ) : ℚ) ≠ 0 := Nat.cast_ne_zero.mpr (Nat.pos_iff_ne_zero.mp hQ)
  have hcount : (List.range sm.length).countP (queryHit sm gt k) = sm.length := by
    have h1 : (List.range sm.length).countP (queryHit sm gt k)
        = (List.range sm.length).length := by
      rw [List.countP_eq_length]
      intro i hi
      rw [List.mem_range] at hi
      cases hgget : gt.get? i with
      | none =>
        have := List.get?_eq_none.mp hgget
        omega
      | some g =>
        have hgC : g < C := hgt g (List.get?_mem hgget)
        have hrowmem : sm.getD i [] ∈ sm := by
          have h2 : sm.getD i [] = sm[i] := by
            simp [List.getD_eq_getElem?_getD, List.getElem?_eq_getElem hi]
          rw [h2]
          exact List.getElem_mem hi
        have hrowlen : (sm.getD i []).length = C := hrect _ hrowmem
        unfold queryHit
        rw [hgget]
        unfold hitRow
        have htake : (rankedRow (sm.getD i [])).take k = rankedRow (sm.getD i []) :=
          List.take_of_length_le (by rw [rankedRow_length, hrowlen]; exact hk)
        rw [htake]
        exact List.elem_iff.mpr (mem_rankedRow.mpr (by rw [hrowlen]; exact hgC))
    simpa using h1
  rw [recallAtK, hcount]
  unfold jsDiv
  rw [if_neg hQ0]
  rw [div_self hQ0]

/-- C7 witness. -/
theorem c7_recall_full_ranking_one_witness :
    ([[(1:ℚ), 2], [3, 4]] : List (List ℚ)) ≠ []
    ∧ (∀ row ∈ ([[(1:ℚ), 2], [3, 4]] : List (List ℚ)), row.length = 2)
    ∧ [0, 1].length = ([[(1:ℚ), 2], [3, 4]] : List (List ℚ)).length
    ∧ (∀ g ∈ [0, 1], g < 2) ∧ 2 ≤ 5
    ∧ recallAtK [[(1:ℚ), 2], [3, 4]] [0, 1] 5 = JsNum.num 1 :=
  ⟨by decide, by decide, by decide, by decide, by decide,
   c7_recall_full_ranking_one _ _ 2 5 (by decide) (by decide) (by decide) (by decide) (by decide)⟩

/-!  ## Mean reciprocal rank bounds -/

theorem foldl_add_num_bounds (f : ℕ → JsNum) (l : List ℕ) :
    ∀ a : ℚ, (∀ i ∈ l, ∃ t : ℚ, f i = JsNum.num t ∧ 0 < t ∧ t ≤ 1) →
    ∃ s : ℚ, l.foldl (fun acc i => JsNum.add acc (f i)) (JsNum.num a) = JsNum.num s
      ∧ a ≤ s ∧ s ≤ a + l.length ∧ (l ≠ [] → a < s) := by
  induction l with
  | nil => intro a _; exact ⟨a, rfl, le_refl _, by simp, by simp⟩
  | cons i t ih =>
    intro a h
    obtain ⟨ti, hfi, hti0, hti1⟩ := h i (List.mem_cons_self i t)
    obtain ⟨s, hs, hs1, hs2, _⟩ := ih (a + ti) (fun j hj => h j (List.mem_cons_of_mem _ hj))
    refine ⟨s, ?_, by linarith, ?_, fun _ => by linarith⟩
    · rw [List.foldl_cons, hfi]
      have hadd : JsNum.add (JsNum.num a) (JsNum.num ti) = JsNum.num (a + ti) := rfl
      rw [hadd]
      exact hs
    · have hlen : (((i :: t).length : ℕ) : ℚ) = ((t.length : ℕ) : ℚ) + 1 := by
        push_cast [List.length_cons]
        ring
      rw [hlen]
      linarith

/-- C10: for a similarity matrix with at least one row, rows of positive
corpus width C, and a ground-truth mapping defined on every query with
all indices in [0, C), `meanReciprocalRank` returns a finite number in
the half-open interval (0, 1]. -/
theorem c10_mrr_in_unit_interval (sm : List (List ℚ)) (gt : List ℕ) (C : ℕ)
    (hne : sm ≠ []) (_hC : 0 < C) (hrect : ∀ row ∈ sm, row.length = C)
    (hlen : gt.length = sm.length) (hgt : ∀ g ∈ gt, g < C) :
    ∃ r : ℚ, meanReciprocalRank sm gt = JsNum.num r ∧ 0 < r ∧ r ≤ 1 := by
  have hQ : 0 < sm.length := List.length_pos.mpr hne
  have hQ0 : ((sm.length : ℕ) : ℚ) ≠ 0 := Nat.cast_ne_zero.mpr (by omega)
  have key : ∀ i ∈ List.range sm.length,
      ∃ t : ℚ, queryRR sm gt i = JsNum.num t ∧ 0 < t ∧ t ≤ 1 := by
    intro i hi
    rw [List.mem_range] at hi
    cases hgget : gt.get? i with
    | none => exact absurd (List.get?_eq_none.mp hgget) (by omega)
    | some g =>
      have hgC : g < C := hgt g (List.get?_mem hgget)
      have hrowmem : sm.getD i [] ∈ sm := by
        have h2 : sm.getD i [] = sm[i] := by
          simp [List.getD_eq_getElem?_getD, List.getElem?_eq_getElem hi]
        rw [h2]
        exact List.getElem_mem hi
      have hrowlen : (sm.getD i []).length = C := hrect _ hrowmem
      have hmem : g ∈ rankedRow (sm.getD i []) := mem_rankedRow.mpr (by omega)
      have hidx : 0 ≤ jsIndexOf (rankedRow (sm.getD i [])) g := jsIndexOf_nonneg hmem
      have hrank1 : (1 : ℚ) ≤ ((jsIndexOf (rankedRow (sm.getD i [])) g + 1 : ℤ) : ℚ) := by
        have h3 : (1 : ℤ) ≤ jsIndexOf (rankedRow (sm.getD i [])) g + 1 := by omega
        exact_mod_cast h3
      have hrankpos : (0 : ℚ) < ((jsIndexOf (rankedRow (sm.getD i [])) g + 1 : ℤ) : ℚ) :=
        lt_of_lt_of_le one_pos hrank1
      refine ⟨1 / ((jsIndexOf (rankedRow (sm.getD i [])) g + 1 : ℤ) : ℚ), ?_, ?_, ?_⟩
      · unfold queryRR
        rw [hgget]
        show reciprocalRank (sm.getD i []) g = _
        unfold reciprocalRank jsDiv
        rw [if_neg (ne_of_gt hrankpos)]
      · exact div_pos one_pos hrankpos
      · rw [div_le_one hrankpos]
        exact hrank1
  obtain ⟨s, hs, _, hsle, hslt⟩ :=
    foldl_add_num_bounds (queryRR sm gt) (List.range sm.length) 0 key
  have hspos : 0 < s := hslt (by simp only [ne_eq, List.range_eq_nil]; omega)
  have hsQ : s ≤ ((sm.length : ℕ) : ℚ) := by simpa using hsle
  have hQpos : (0 : ℚ) < ((sm.length : ℕ) : ℚ) := by exact_mod_cast hQ
  refine ⟨s / ((sm.length : ℕ) : ℚ), ?_, div_pos hspos hQpos, ?_⟩
  · unfold meanReciprocalRank
    rw [hs]
    show jsDiv s ((sm.length : ℕ) : ℚ) = _
    unfold jsDiv
    rw [if_neg hQ0]
  · rw [div_le_one hQpos]
    exact hsQ

/-- C10 witness. -/
theorem c10_mrr_in_unit_interval_witness :
    ([[(1:ℚ)]] : List (List ℚ)) ≠ [] ∧ 0 < 1
    ∧ (∀ row ∈ ([[(1:ℚ)]] : List (List ℚ)), row.length = 1)
    ∧ [0].length = ([[(1:ℚ)]] : List (List ℚ)).length ∧ (∀ g ∈ [0], g < 1)
    ∧ ∃ r : ℚ, meanReciprocalRank [[(1:ℚ)]] [0] = JsNum.num r ∧ 0 < r ∧ r ≤ 1 :=
  ⟨by decide, by decide, by decide, by decide, by decide,
   c10_mrr_in_unit_interval _ _ 1 (by decide) (by decide) (by decide) (by decide) (by decide)⟩

/-!  ## Batch encoder properties -/

theorem batchesAux_nil (bs fuel : ℕ) : batchesAux bs fuel ([] : List α) = [] := by
  cases fuel <;> rfl

theorem batchesAux_flatten (bs : ℕ) (hbs : 1 ≤ bs) :
    ∀ (fuel : ℕ) (ts : List α), ts.length ≤ fuel → (batchesAux bs fuel ts).flatten = ts := by
  intro fuel
  induction fuel with
  | zero =>
    intro ts hts
    have : ts = [] := List.eq_nil_of_length_eq_zero (by omega)
    subst this
    rfl
  | succ n ih =>
    intro ts hts
    cases ts with
    | nil => rfl
    | cons t ts =>
      obtain ⟨b, rfl⟩ : ∃ b, bs = b + 1 := ⟨bs - 1, by omega⟩
      simp only [batchesAux, List.flatten_cons]
      rw [ih (ts.drop (b + 1 - 1)) (by simp only [List.length_drop]; simp only [List.length_cons] at hts; omega)]
      simp [List.take_succ_cons]

theorem batches_flatten (bs : ℕ) (hbs : 1 ≤ bs) (ts : List α) :
    (batches bs ts).flatten = ts :=
  batchesAux_flatten bs hbs ts.length ts (le_refl _)

theorem batchesAux_length_le (bs : ℕ) :
    ∀ (fuel : ℕ) (ts : List α), ∀ b ∈ batchesAux bs fuel ts, b.length ≤ bs := by
  intro fuel
  induction fuel with
  | zero =>
    intro ts b hb
    cases ts with
    | nil => simp [batchesAux] at hb
    | cons t ts => simp [batchesAux] at hb
  | succ n ih =>
    intro ts b hb
    cases ts with
    | nil => simp [batchesAux] at hb
    | cons t ts =>
      simp only [batchesAux, List.mem_cons] at hb
      rcases hb with rfl | hb
      · simp [List.length_take]
      · exact ih _ b hb

theorem batchesAux_full (bs : ℕ) (hbs : 1 ≤ bs) :
    ∀ (fuel : ℕ) (ts : List α), ts.length ≤ fuel →
      ∀ i, i + 1 < (batchesAux bs fuel ts).length →
        ((batchesAux bs fuel ts).getD i []).length = bs := by
  intro fuel
  induction fuel with
  | zero =>
    intro ts hts i hi
    have : ts = [] := List.eq_nil_of_length_eq_zero (by omega)
    subst this
    simp [batchesAux] at hi
  | succ n ih =>
    intro ts hts i hi
    cases ts with
    | nil => simp [batchesAux] at hi
    | cons t ts =>
      simp only [batchesAux] at hi ⊢
      cases i with
      | zero =>
        have hrest : batchesAux bs n (ts.drop (bs - 1)) ≠ [] := by
          intro hr
          rw [hr] at hi
          simp at hi
        have hdrop : ts.drop (bs - 1) ≠ [] := by
          intro hd
          rw [hd, batchesAux_nil] at hrest
          exact hrest rfl
        have hlen : bs - 1 < ts.length := by
          by_contra hcon
          exact hdrop (List.drop_eq_nil_of_le (by omega))
        simp only [List.getD_cons_zero, List.length_take, List.length_cons]
        omega
      | succ i =>
        simp only [List.getD_cons_succ]
        refine ih (ts.drop (bs - 1)) (by simp [List.length_drop]; simp at hts; omega) i ?_
        simp only [List.length_cons] at hi
        omega

theorem foldl_append_map (f : α → β) :
    ∀ (L : List (List α)) (init : List β),
      L.foldl (fun acc batch => acc ++ batch.map f) init = init ++ (L.map (List.map f)).flatten := by
  intro L
  induction L with
  | nil => intro init; simp
  | cons b L ih =>
    intro init
    simp only [List.foldl_cons, List.map_cons, List.flatten_cons]
    rw [ih (init ++ b.map f), List.append_assoc]

theorem encodeTexts_eq_map (f : α → β) (ts : List α) (bs : ℕ) (hbs : 1 ≤ bs) :
    encodeTexts f ts bs = ts.map f := by
  unfold encodeTexts
  rw [foldl_append_map, List.nil_append, ← List.map_flatten, batches_flatten bs hbs]

/-- C9: for every text sequence and every batch size ≥ 1, the encoder
partitions the texts into consecutive batches (the batches concatenate
back to the input, every batch has at most `bs` texts and every batch
except possibly the last has exactly `bs`), invokes the provider once per
text in input order, and returns the embeddings in exactly the input
order: `encodeTexts f ts bs = ts.map f`. -/
theorem c9_encode_batches_in_order {α β : Type} (f : α → β) (ts : List α) (bs : ℕ)
    (hbs : 1 ≤ bs) :
    (batches bs ts).flatten = ts
    ∧ (∀ b ∈ batches bs ts, b.length ≤ bs)
    ∧ (∀ i, i + 1 < (batches bs ts).length → ((batches bs ts).getD i []).length = bs)
    ∧ encodeTexts f ts bs = ts.map f :=
  ⟨batches_flatten bs hbs ts,
   fun b hb => batchesAux_length_le bs ts.length ts b hb,
   fun i hi => batchesAux_full bs hbs ts.length ts (le_refl _) i hi,
   encodeTexts_eq_map f ts bs hbs⟩

/-- C9 witness: encoding three texts with batch size 2. -/
theorem c9_encode_batches_in_order_witness :
    1 ≤ 2 ∧ encodeTexts (fun n : ℕ => n + 1) [10, 20, 30] 2 = List.map (fun n => n + 1) [10, 20, 30] :=
  ⟨by decide, (c9_encode_batches_in_order (fun n : ℕ => n + 1) [10, 20, 30] 2 (by decide)).2.2.2⟩

/-!  ## Matmul computes exact dot products -/

theorem getD_of_lt {γ : Type} (l : List γ) (d : γ) (i : ℕ) (h : i < l.length) :
    l.getD i d = l[i] := by
  simp [List.getD_eq_getElem?_getD, List.getElem?_eq_getElem h]

theorem transpose_get? (c0 : List ℚ) (cs : List (List ℚ)) (k : ℕ) (hk : k < c0.length) :
    (transpose (c0 :: cs)).get? k = some ((c0 :: cs).map (fun row => row.getD k 0)) := by
  show ((List.range c0.length).map (fun j => (c0 :: cs).map (fun row => row.getD j 0))).get? k = _
  rw [List.get?_map, List.get?_range hk]
  rfl

theorem dotJsAux_ok (arow : List ℚ) (b : List (List ℚ)) (j : ℕ) :
    ∀ (ks : List ℕ) (acc : ℚ),
      (∀ k ∈ ks, k < b.length ∧ k < arow.length ∧ j < (b.getD k []).length) →
      dotJsAux arow b j ks (JsNum.num acc)
        = Except.ok (JsNum.num (acc +
            (ks.map (fun k => arow.getD k 0 * (b.getD k []).getD j 0)).sum)) := by
  intro ks
  induction ks with
  | nil => intro acc _; simp [dotJsAux]
  | cons k ks ih =>
    intro acc h
    obtain ⟨hkb, hka, hkj⟩ := h k (List.mem_cons_self k ks)
    have hb : b.get? k = some (b.getD k []) := by
      rw [List.get?_eq_getElem?, List.getElem?_eq_getElem hkb, getD_of_lt b [] k hkb]
    have ha : arow.get? k = some (arow.getD k 0) := by
      rw [List.get?_eq_getElem?, List.getElem?_eq_getElem hka, getD_of_lt arow 0 k hka]
    have hbj : (b.getD k []).get? j = some ((b.getD k []).getD j 0) := by
      rw [List.get?_eq_getElem?, List.getElem?_eq_getElem hkj, getD_of_lt _ 0 j hkj]
    simp only [dotJsAux, hb, ha, hbj]
    have hadd : JsNum.add (JsNum.num acc) (JsNum.num (arow.getD k 0 * (b.getD k []).getD j 0))
        = JsNum.num (acc + arow.getD k 0 * (b.getD k []).getD j 0) := rfl
    rw [hadd, ih _ (fun k2 hk2 => h k2 (List.mem_cons_of_mem _ hk2))]
    rw [List.map_cons, List.sum_cons, ← add_assoc]

theorem rowJs_ok (arow : List ℚ) (b : List (List ℚ)) (D : ℕ) (g : ℕ → JsNum) :
    ∀ cols : List ℕ, (∀ j ∈ cols, dotJs arow b j D = Except.ok (g j)) →
      rowJs arow b D cols = Except.ok (cols.map g) := by
  intro cols
  induction cols with
  | nil => intro _; rfl
  | cons j js ih =>
    intro h
    simp only [rowJs]
    rw [h j (List.mem_cons_self j js), ih (fun j2 hj2 => h j2 (List.mem_cons_of_mem _ hj2))]
    rfl

theorem matmulRows_ok (b : List (List ℚ)) (cols : List ℕ) (D : ℕ) (G : List ℚ → List JsNum) :
    ∀ rows : List (List ℚ), (∀ r ∈ rows, rowJs r b D cols = Except.ok (G r)) →
      matmulRows b cols D rows = Except.ok (rows.map G) := by
  intro rows
  induction rows with
  | nil => intro _; rfl
  | cons r rs ih =>
    intro h
    simp only [matmulRows]
    rw [h r (List.mem_cons_self r rs), ih (fun r2 hr2 => h r2 (List.mem_cons_of_mem _ hr2))]
    rfl

theorem range_sum_eq_dot :
    ∀ (D : ℕ) (u v : List ℚ), u.length = D → v.length = D →
      ((List.range D).map (fun k => u.getD k 0 * v.getD k 0)).sum = dot u v := by
  intro D
  induction D with
  | zero =>
    intro u v hu hv
    have hu0 : u = [] := List.eq_nil_of_length_eq_zero hu
    have hv0 : v = [] := List.eq_nil_of_length_eq_zero hv
    subst hu0; subst hv0
    simp [dot]
  | succ n ih =>
    intro u v hu hv
    cases u with
    | nil => simp at hu
    | cons x u2 =>
      cases v with
      | nil => simp at hv
      | cons y v2 =>
        rw [List.range_succ_eq_map]
        simp only [List.map_cons, List.map_map, List.sum_cons, List.getD_cons_zero]
        have hcomp : ((fun k => (x :: u2).getD k 0 * (y :: v2).getD k 0) ∘ Nat.succ)
            = fun k => u2.getD k 0 * v2.getD k 0 := by
          funext k
          simp [Function.comp, List.getD_cons_succ]
        rw [hcomp, ih u2 v2 (by simpa using hu) (by simpa using hv)]
        simp [dot]

theorem getD_map {γ δ : Type} (f : γ → δ) (l : List γ) (dg : γ) (dd : δ) (i : ℕ)
    (h : i < l.length) : (l.map f).getD i dd = f (l.getD i dg) := by
  rw [getD_of_lt _ dd i (by simpa using h), getD_of_lt l dg i h]
  simp

theorem getD_range {n i : ℕ} (h : i < n) : (List.range n).getD i 0 = i := by
  rw [getD_of_lt _ 0 i (by simpa using h)]
  simp

/-- C5: for query and corpus embedding sets of a common positive
dimensionality D (and a nonempty corpus, so that the transposed matrix
has a first row to read the column count from), the similarity
computation succeeds and returns a matrix with one row per query and one
column per corpus item whose (i, j) entry is exactly the dot product of
query vector i with corpus vector j — no normalization, no truncation. -/
theorem c5_similarity_is_dot_products (q c : List (List ℚ)) (D : ℕ)
    (hD : 0 < D) (hcne : c ≠ [])
    (hq : ∀ r ∈ q, r.length = D) (hc : ∀ r ∈ c, r.length = D) :
    ∃ m, matmul q (transpose c) = Except.ok m
      ∧ m.length = q.length
      ∧ (∀ r ∈ m, r.length = c.length)
      ∧ ∀ i j, i < q.length → j < c.length →
          (m.getD i []).getD j JsNum.nan = JsNum.num (dot (q.getD i []) (c.getD j [])) := by
  obtain ⟨c0, cs, rfl⟩ : ∃ c0 cs, c = c0 :: cs := by
    cases c with
    | nil => exact absurd rfl hcne
    | cons c0 cs => exact ⟨c0, cs, rfl⟩
  have hc0 : c0.length = D := hc c0 (List.mem_cons_self c0 cs)
  have hblen : (transpose (c0 :: cs)).length = D := by
    show ((List.range c0.length).map _).length = D
    simp [hc0]
  have hbget : ∀ k, k < D →
      (transpose (c0 :: cs)).getD k [] = (c0 :: cs).map (fun row => row.getD k 0) := by
    intro k hk
    rw [List.getD_eq_get?, transpose_get? c0 cs k (by omega)]
    rfl
  have hbrowlen : ∀ k, k < D →
      ((transpose (c0 :: cs)).getD k []).length = (c0 :: cs).length := by
    intro k hk
    rw [hbget k hk]
    simp
  have hdot : ∀ arow : List ℚ, arow.length = D → ∀ j, j < (c0 :: cs).length →
      dotJs arow (transpose (c0 :: cs)) j D
        = Except.ok (JsNum.num (dot arow ((c0 :: cs).getD j []))) := by
    intro arow harow j hj
    unfold dotJs
    rw [dotJsAux_ok arow _ j (List.range D) 0
      (fun k hk => by
        rw [List.mem_range] at hk
        exact ⟨by rw [hblen]; exact hk, by rw [harow]; exact hk,
          by rw [hbrowlen k hk]; exact hj⟩)]
    have hmapeq : (List.range D).map
          (fun k => arow.getD k 0 * ((transpose (c0 :: cs)).getD k []).getD j 0)
        = (List.range D).map (fun k => arow.getD k 0 * ((c0 :: cs).getD j []).getD k 0) := by
      apply List.map_congr_left
      intro k hk
      rw [List.mem_range] at hk
      rw [hbget k hk, getD_map (fun row => row.getD k 0) (c0 :: cs) [] 0 j hj]
    have hvmem : (c0 :: cs).getD j [] ∈ (c0 :: cs) := by
      rw [getD_of_lt (c0 :: cs) [] j hj]
      exact List.getElem_mem hj
    rw [hmapeq, zero_add, range_sum_eq_dot D arow ((c0 :: cs).getD j []) harow (hc _ hvmem)]
  cases q with
  | nil =>
    refine ⟨[], rfl, rfl, by simp, ?_⟩
    intro i j hi _
    simp at hi
  | cons q0 qs =>
    have hq0 : q0.length = D := hq q0 (List.mem_cons_self q0 qs)
    have hb0 : (transpose (c0 :: cs)).get? 0
        = some ((c0 :: cs).map (fun row => row.getD 0 0)) :=
      transpose_get? c0 cs 0 (by omega)
    refine ⟨(q0 :: qs).map (fun arow =>
        (List.range (c0 :: cs).length).map
          (fun j => JsNum.num (dot arow ((c0 :: cs).getD j [])))),
      ?_, by simp, ?_, ?_⟩
    · simp only [matmul]
      rw [hb0]
      show matmulRows (transpose (c0 :: cs))
        (List.range ((c0 :: cs).map (fun row => row.getD 0 0)).length) q0.length (q0 :: qs) = _
      rw [List.length_map, hq0]
      exact matmulRows_ok _ _ _ _ (q0 :: qs)
        (fun r hr => rowJs_ok r _ D _ (List.range (c0 :: cs).length)
          (fun j hj => hdot r (hq r hr) j (List.mem_range.mp hj)))
    · intro r hr
      rw [List.mem_map] at hr
      obtain ⟨arow, _, rfl⟩ := hr
      simp
    · intro i j hi hj
      rw [getD_map _ (q0 :: qs) [] [] i hi,
        getD_map _ (List.range (c0 :: cs).length) 0 JsNum.nan j (by simpa using hj),
        getD_range hj]

/-- C5 witness: the 2×2 identity queries against the 2×2 identity corpus. -/
theorem c5_similarity_is_dot_products_witness :
    0 < 2 ∧ ([[(1:ℚ), 0], [0, 1]] : List (List ℚ)) ≠ []
    ∧ (∀ r ∈ ([[(1:ℚ), 0], [0, 1]] : List (List ℚ)), r.length = 2)
    ∧ ∃ m, matmul [[(1:ℚ), 0], [0, 1]] (transpose [[(1:ℚ), 0], [0, 1]]) = Except.ok m
        ∧ m.length = ([[(1:ℚ), 0], [0, 1]] : List (List ℚ)).length
        ∧ (∀ r ∈ m, r.length = ([[(1:ℚ), 0], [0, 1]] : List (List ℚ)).length)
        ∧ ∀ i j, i < ([[(1:ℚ), 0], [0, 1]] : List (List ℚ)).length →
            j < ([[(1:ℚ), 0], [0, 1]] : List (List ℚ)).length →
            (m.getD i []).getD j JsNum.nan
              = JsNum.num (dot (([[(1:ℚ), 0], [0, 1]] : List (List ℚ)).getD i [])
                  (([[(1:ℚ), 0], [0, 1]] : List (List ℚ)).getD j [])) :=
  ⟨by decide, by decide, by decide,
   c5_similarity_is_dot_products [[(1:ℚ), 0], [0, 1]] [[(1:ℚ), 0], [0, 1]] 2
     (by decide) (by decide) (by decide) (by decide)⟩
